import Mathlib

/-!
Verification of the EngineMatch match-orchestration core of cutechess
(projects/cli/src/enginematch.cpp) and the abstract engine interface
(src/chessengine.h), against its natural-language specification.

Machine floating-point values (qreal) are modelled by the real numbers;
Qt container behaviour (QMap, QMultiMap) is modelled by association lists
with the documented Qt insertion and iteration order.
-/

namespace EngineMatch

/-- Per-player tournament counters, mirroring the fields of
Tournament::PlayerData that enginematch.cpp reads (wins, losses, draws,
and the builder name). -/
structure PlayerData where
  name : String
  wins : Nat
  losses : Nat
  draws : Nat
deriving DecidableEq

/-- Score of a player: wins * 2 + draws (enginematch.cpp line 175). -/
def score (p : PlayerData) : Nat :=
  p.wins * 2 + p.draws

/-- Total of a player: (wins + losses + draws) * 2 (enginematch.cpp line 176). -/
def total (p : PlayerData) : Nat :=
  (p.wins + p.losses + p.draws) * 2

/-- Score ratio of a player: qreal(score) / qreal(total)
(enginematch.cpp line 180), modelled over the reals. -/
noncomputable def ratioOf (p : PlayerData) : ℝ :=
  (score p : ℝ) / (total p : ℝ)

/-- Elo difference formula: -400.0 * log(1.0 / ratio - 1.0) / log(10.0)
(enginematch.cpp line 181), modelled over the reals. -/
noncomputable def eloDiff (r : ℝ) : ℝ :=
  -400 * Real.log (1 / r - 1) / Real.log 10

/-- One row of the ranking table: struct RankingData of enginematch.cpp
(lines 159-165); the score and draws fields hold fractions of 1. -/
structure RankingData where
  name : String
  games : Nat
  score : ℝ
  draws : ℝ

/-- The RankingData value built for one player
(enginematch.cpp lines 189-192). -/
noncomputable def mkRow (p : PlayerData) : RankingData :=
  { name := p.name
    games := total p / 2
    score := ratioOf p
    draws := (p.draws * 2 : ℝ) / (total p : ℝ) }

/-- Model of QMultiMap::insert on a key-sorted association list: keys are
kept in ascending order and a new item is placed before every existing
item whose key is greater than or equal to the new key.  This is the
documented Qt behaviour: values that share a key are ordered from the
most recently inserted to the least recently inserted one. -/
def qmmInsert {K α : Type} [LinearOrder K] (k : K) (v : α) :
    List (K × α) → List (K × α)
  | [] => [(k, v)]
  | (k1, v1) :: rest =>
    if k ≤ k1 then (k, v) :: (k1, v1) :: rest
    else (k1, v1) :: qmmInsert k v rest

/-- The player loop of EngineMatch::printRanking (enginematch.cpp lines
169-194).  The argument n is m_tournament->playerCount() and acc is the
QMultiMap built so far.  The result collects, in order: the two-player
ELO-difference line printed at line 185 (none when that line is never
reached), the final contents of the QMultiMap in iteration order, and the
names of the players for which the eloDiff expression at line 181 was
evaluated (the loop iterations that passed the total <= 0 guard). -/
noncomputable def rankingLoop (n : Nat) :
    List PlayerData → List (ℝ × RankingData) →
    Option ℝ × List (ℝ × RankingData) × List String
  | [], acc => (none, acc, [])
  | p :: ps, acc =>
    if total p = 0 then rankingLoop n ps acc
    else if n = 2 then (some (eloDiff (ratioOf p)), acc, [p.name])
    else
      let r := rankingLoop n ps
        (qmmInsert (-(eloDiff (ratioOf p))) (mkRow p) acc)
      (r.1, r.2.1, p.name :: r.2.2)

/-- The observable outcome of one call to EngineMatch::printRanking
(enginematch.cpp lines 167-212), apart from the SPRT summary line which
is modelled separately: the optional two-player ELO line, the ranking
table rows in print order, whether the table header was printed
(line 196: only when the map is nonempty), and the names of the players
for which the eloDiff formula was evaluated. -/
structure RankingOutput where
  eloLine : Option ℝ
  rows : List (ℝ × RankingData)
  header : Bool
  evaluated : List String

/-- Model of EngineMatch::printRanking (enginematch.cpp lines 167-212),
without the SPRT summary part. -/
noncomputable def printRanking (players : List PlayerData) : RankingOutput :=
  let r := rankingLoop players.length players []
  { eloLine := r.1
    rows := r.2.1
    header := !r.2.1.isEmpty
    evaluated := r.2.2 }

/-- Decision of EngineMatch::onGameFinished (enginematch.cpp lines
133-135) to print the ranking after a finished game: the rating interval
is nonzero and the finished-game count is divisible by it. -/
def printsAfterGame (interval finished : Nat) : Bool :=
  interval != 0 && finished % interval == 0

/-- Decision of EngineMatch::onTournamentFinished (enginematch.cpp lines
140-142) to print the ranking at tournament end: the rating interval is
zero or the finished-game count is not divisible by it. -/
def printsAtEnd (interval finished : Nat) : Bool :=
  interval == 0 || finished % interval != 0

/-- The finished-game counts 1..n after which the ranking is printed
during a run of n games. -/
def rankingPrintPoints (interval n : Nat) : List Nat :=
  ((List.range n).map (fun k => k + 1)).filter
    (fun k => printsAfterGame interval k)

/-- Model of EngineMatch::addOpeningBook (enginematch.cpp lines 46-64).
The book cache m_books is an association list, the file system is the
function readBook (PolyglotBook::read succeeding exactly when it returns
some book).  The result carries the returned book pointer (none models
the null pointer), the cache after the call, and a flag recording whether
the call reached the read of the file at line 55. -/
def addOpeningBook {α : Type} (readBook : String → Option α)
    (books : List (String × α)) (file : String) :
    Option α × List (String × α) × Bool :=
  if file = "" then (none, books, false)
  else
    match books.lookup file with
    | some b => (some b, books, false)
    | none =>
      match readBook file with
      | none => (none, books, true)
      | some b => (some b, (file, b) :: books, true)

/-- The verdict component of Sprt::Status as used by enginematch.cpp
(lines 223-226): the test is still running or one hypothesis was
accepted. -/
inductive SprtResult where
  | Continuing
  | AcceptH0
  | AcceptH1
deriving DecidableEq

/-- Sprt::Status as read by EngineMatch::printRanking (enginematch.cpp
lines 214-226): a verdict, the log-likelihood ratio and the two
bounds. -/
structure SprtStatus where
  result : SprtResult
  llr : ℝ
  lBound : ℝ
  uBound : ℝ

/-- The content of the SPRT summary line printed by printRanking: the
three numeric values and the optional appended verdict text. -/
structure SprtLine where
  llr : ℝ
  lBound : ℝ
  uBound : ℝ
  verdict : Option SprtResult

/-- Model of the SPRT summary part of EngineMatch::printRanking
(enginematch.cpp lines 214-229): when llr, lBound and uBound are not all
zero, exactly one line is emitted carrying the three values, with the
verdict appended exactly when the result is AcceptH0 or AcceptH1;
otherwise no line is emitted. -/
noncomputable def sprtSummary (s : SprtStatus) : Option SprtLine :=
  if s.llr ≠ 0 ∨ s.lBound ≠ 0 ∨ s.uBound ≠ 0 then
    some { llr := s.llr
           lBound := s.lBound
           uBound := s.uBound
           verdict :=
             if s.result = SprtResult.AcceptH0 then some SprtResult.AcceptH0
             else if s.result = SprtResult.AcceptH1 then some SprtResult.AcceptH1
             else none }
  else none

/-- Outcome of one finished game as consumed by the sequential tester. -/
inductive GameOutcome where
  | win
  | loss
  | draw

/-- Modelled from the spec: the update step of the SequentialTester
(Sprt::update), whose implementation (sprt.cpp) is not among the given
source files; only its Status type and its caller appear in
enginematch.cpp.  Following section 4.6 of the spec: each finished game
adds its per-outcome log-likelihood contribution (the function inc, left
as a parameter since its value depends on the two Elo hypotheses) to the
cumulative llr; after each update, llr at or below the lower bound
accepts H0, llr at or above the upper bound accepts H1, and otherwise the
test continues; and the verdict is sticky: once AcceptH0 or AcceptH1 is
reached, later updates from games already in flight leave it
unchanged. -/
noncomputable def sprtUpdate (inc : GameOutcome → ℝ) (s : SprtStatus)
    (o : GameOutcome) : SprtStatus :=
  if s.result ≠ SprtResult.Continuing then s
  else
    let llr2 := s.llr + inc o
    { s with
      llr := llr2
      result :=
        if llr2 ≤ s.lBound then SprtResult.AcceptH0
        else if s.uBound ≤ llr2 then SprtResult.AcceptH1
        else SprtResult.Continuing }


/-! Claim C2: opening-book caching. -/

/-- Claim C2, counterexample: the claim states that after a first call of
addOpeningBook with a given file name, no later call with the same name
reads the file again, even when the first load failed.  In the code a
failed load is not cached, so with a file system on which reading
book.bin fails, both the first and the second call reach the read of the
file. -/
theorem c2_failed_load_not_cached :
    (addOpeningBook (fun _ => (none : Option Nat)) [] "book.bin").2.2 = true ∧
    (addOpeningBook (fun _ => (none : Option Nat))
      (addOpeningBook (fun _ => (none : Option Nat)) [] "book.bin").2.1
      "book.bin").2.2 = true := by
  constructor <;> rfl

/-- Claim C2, amended: a successful load is cached, and a later call with
the same file name returns the cached handle without reading the file
again; a failed load returns no book and leaves the cache unchanged, so a
later call with the same file name reads (retries) the file again. -/
theorem c2_opening_book_cache (α : Type) (readBook : String → Option α)
    (books : List (String × α)) (f : String) (b : α)
    (hf : f ≠ "") (hmem : books.lookup f = none) :
    (readBook f = some b →
      addOpeningBook readBook books f = (some b, (f, b) :: books, true) ∧
      addOpeningBook readBook ((f, b) :: books) f =
        (some b, (f, b) :: books, false)) ∧
    (readBook f = none →
      addOpeningBook readBook books f = (none, books, true) ∧
      (addOpeningBook readBook
        (addOpeningBook readBook books f).2.1 f).2.2 = true) := by
  constructor
  · intro hr
    constructor
    · simp [addOpeningBook, hf, hmem, hr]
    · simp [addOpeningBook, hf, List.lookup]
  · intro hr
    constructor
    · simp [addOpeningBook, hf, hmem, hr]
    · simp [addOpeningBook, hf, hmem, hr]

/-- Witness for c2_opening_book_cache at a concrete successful load. -/
theorem c2_opening_book_cache_witness :
    addOpeningBook (fun _ => some 7) ([] : List (String × Nat)) "book.bin" =
      (some 7, [("book.bin", 7)], true) ∧
    addOpeningBook (fun _ => some 7) [("book.bin", 7)] "book.bin" =
      (some 7, [("book.bin", 7)], false) :=
  (c2_opening_book_cache Nat (fun _ => some 7) [] "book.bin" 7
    (by decide) (by rfl)).1 (by rfl)

/-! Claim C3: the rating-interval printing schedule. -/

/-- Claim C3: with a positive rating interval r, the ranking is printed
after exactly the finished games whose count is a multiple of r, and it
is printed at tournament end exactly when the final game count is not a
multiple of r; with interval zero it is printed only at tournament end;
and in particular with r = 5 and 12 games it is printed after games 5 and
10 and once more at match end. -/
theorem c3_rating_interval (r n k : Nat) :
    (0 < r →
      ((printsAfterGame r k = true ↔ r ∣ k) ∧
       (printsAtEnd r n = true ↔ ¬ r ∣ n))) ∧
    printsAfterGame 0 k = false ∧
    printsAtEnd 0 n = true ∧
    rankingPrintPoints 5 12 = [5, 10] ∧
    printsAtEnd 5 12 = true := by
  refine ⟨fun hr => ⟨?_, ?_⟩, ?_, ?_, ?_, ?_⟩
  · rw [Nat.dvd_iff_mod_eq_zero]
    simp [printsAfterGame, Nat.pos_iff_ne_zero.mp hr]
  · rw [Nat.dvd_iff_mod_eq_zero]
    simp [printsAtEnd, Nat.pos_iff_ne_zero.mp hr]
  · simp [printsAfterGame]
  · simp [printsAtEnd]
  · decide
  · decide

/-- Witness for c3_rating_interval: with interval 5, the ranking is
printed after game 10 (a multiple of 5) and once more at the end of a
12-game match. -/
theorem c3_rating_interval_witness :
    (printsAfterGame 5 10 = true ↔ (5 : Nat) ∣ 10) ∧
    (printsAtEnd 5 12 = true ↔ ¬ (5 : Nat) ∣ 12) :=
  (c3_rating_interval 5 12 10).1 (by decide)

/-! Claim C7: the SPRT verdict is sticky. -/

/-- Claim C7: once the sequential tester has reached the verdict AcceptH0
or AcceptH1, any sequence of further game-outcome updates leaves the
verdict unchanged. -/
theorem c7_sprt_verdict_sticky (inc : GameOutcome → ℝ) (s : SprtStatus)
    (os : List GameOutcome) (h : s.result ≠ SprtResult.Continuing) :
    (os.foldl (sprtUpdate inc) s).result = s.result := by
  induction os generalizing s with
  | nil => rfl
  | cons o os ih =>
    have hstep : sprtUpdate inc s o = s := by
      simp [sprtUpdate, h]
    rw [List.foldl_cons, hstep]
    exact ih s h

/-- Witness for c7_sprt_verdict_sticky at a concrete accepted state and a
concrete update sequence. -/
theorem c7_sprt_verdict_sticky_witness :
    (([GameOutcome.win, GameOutcome.draw, GameOutcome.loss].foldl
      (sprtUpdate (fun _ => 1))
      ⟨SprtResult.AcceptH1, 3, -2, 2⟩).result : SprtResult) =
    (⟨SprtResult.AcceptH1, 3, -2, 2⟩ : SprtStatus).result :=
  c7_sprt_verdict_sticky (fun _ => 1) ⟨SprtResult.AcceptH1, 3, -2, 2⟩
    [GameOutcome.win, GameOutcome.draw, GameOutcome.loss] (by simp)

/-! Claim C1: the Elo formula is not guarded at ratio 0 or 1. -/

/-- Claim C1 fails on the code: printRanking guards only total <= 0, not
the edge cases ratio = 0 and ratio = 1.  With two players whose counters
give the first player ratio 1 (one win, nothing else), the loop still
evaluates the eloDiff formula for that player and prints the resulting
value, and symmetrically for ratio 0 (one loss, nothing else); neither
edge case is guarded. -/
theorem c1_elo_formula_not_guarded :
    (printRanking [⟨"A", 1, 0, 0⟩, ⟨"B", 0, 1, 0⟩]).evaluated = ["A"] ∧
    ratioOf ⟨"A", 1, 0, 0⟩ = 1 ∧
    (printRanking [⟨"A", 1, 0, 0⟩, ⟨"B", 0, 1, 0⟩]).eloLine =
      some (eloDiff 1) ∧
    (printRanking [⟨"A", 0, 1, 0⟩, ⟨"B", 1, 0, 0⟩]).evaluated = ["A"] ∧
    ratioOf ⟨"A", 0, 1, 0⟩ = 0 ∧
    (printRanking [⟨"A", 0, 1, 0⟩, ⟨"B", 1, 0, 0⟩]).eloLine =
      some (eloDiff 0) := by
  have h1 : ratioOf ⟨"A", 1, 0, 0⟩ = 1 := by
    simp [ratioOf, score, total]
  have h0 : ratioOf ⟨"A", 0, 1, 0⟩ = 0 := by
    simp [ratioOf, score, total]
  refine ⟨?_, h1, ?_, ?_, h0, ?_⟩
  · simp [printRanking, rankingLoop, total, score]
  · simp [printRanking, rankingLoop, total, score, h1]
  · simp [printRanking, rankingLoop, total, score]
  · simp [printRanking, rankingLoop, total, score, h0]

/-! Helper lemmas about qmmInsert and the printRanking loop. -/

/-- Membership in a multimap after an insertion: the element is the new
item or was already present. -/
theorem qmmInsert_mem {K α : Type} [LinearOrder K] {k : K} {v : α}
    {l : List (K × α)} {x : K × α} (hx : x ∈ qmmInsert k v l) :
    x = (k, v) ∨ x ∈ l := by
  induction l with
  | nil => simpa [qmmInsert] using hx
  | cons hd t ih =>
    obtain ⟨k1, v1⟩ := hd
    by_cases hle : k ≤ k1
    · simp only [qmmInsert] at hx
      rw [if_pos hle] at hx
      rcases List.mem_cons.mp hx with h | h
      · exact Or.inl h
      · exact Or.inr h
    · simp only [qmmInsert] at hx
      rw [if_neg hle] at hx
      rcases List.mem_cons.mp hx with h | h
      · exact Or.inr (by simp [h])
      · rcases ih h with h2 | h2
        · exact Or.inl h2
        · exact Or.inr (List.mem_cons_of_mem _ h2)

/-- Insertion into a key-sorted multimap keeps the keys sorted. -/
theorem qmmInsert_pairwise {K α : Type} [LinearOrder K] {k : K} {v : α}
    {l : List (K × α)} (hl : l.Pairwise (fun a b => a.1 ≤ b.1)) :
    (qmmInsert k v l).Pairwise (fun a b => a.1 ≤ b.1) := by
  induction l with
  | nil => simp [qmmInsert]
  | cons hd t ih =>
    obtain ⟨k1, v1⟩ := hd
    rcases List.pairwise_cons.mp hl with ⟨h1, h2⟩
    by_cases hle : k ≤ k1
    · simp only [qmmInsert]
      rw [if_pos hle]
      refine List.Pairwise.cons ?_ hl
      intro b hb
      rcases List.mem_cons.mp hb with rfl | hb
      · exact hle
      · exact le_trans hle (h1 b hb)
    · simp only [qmmInsert]
      rw [if_neg hle]
      refine List.Pairwise.cons ?_ (ih h2)
      intro b hb
      rcases qmmInsert_mem hb with rfl | hb
      · exact (not_le.mp hle).le
      · exact h1 b hb

/-- When the new key is at most every key already present, the new item
goes to the front: inserted values precede older values with equal
keys. -/
theorem qmmInsert_eq_cons {K α : Type} [LinearOrder K] {k : K} {v : α}
    {l : List (K × α)} (h : ∀ x ∈ l, k ≤ x.1) :
    qmmInsert k v l = (k, v) :: l := by
  cases l with
  | nil => rfl
  | cons hd t =>
    obtain ⟨k1, v1⟩ := hd
    simp only [qmmInsert]
    rw [if_pos (h (k1, v1) (by simp))]

/-- When every player has zero finished games, the printRanking loop
does nothing at all. -/
theorem rankingLoop_all_zero (n : Nat) : ∀ (ps : List PlayerData)
    (acc : List (ℝ × RankingData)), (∀ p ∈ ps, total p = 0) →
    rankingLoop n ps acc = (none, acc, []) := by
  intro ps
  induction ps with
  | nil => intro acc _; rfl
  | cons p ps ih =>
    intro acc h
    have hp : total p = 0 := h p (by simp)
    have hstep : rankingLoop n (p :: ps) acc = rankingLoop n ps acc := by
      simp [rankingLoop, hp]
    rw [hstep]
    exact ih acc (fun q hq => h q (by simp [hq]))

/-- Every name in the evaluated list of the printRanking loop belongs to
a listed player with a positive total. -/
theorem rankingLoop_evaluated (n : Nat) : ∀ (ps : List PlayerData)
    (acc : List (ℝ × RankingData)) (nm : String),
    nm ∈ (rankingLoop n ps acc).2.2 →
    ∃ p, p ∈ ps ∧ p.name = nm ∧ 0 < total p := by
  intro ps
  induction ps with
  | nil => intro acc nm h; simp [rankingLoop] at h
  | cons p ps ih =>
    intro acc nm h
    by_cases h0 : total p = 0
    · rw [show rankingLoop n (p :: ps) acc = rankingLoop n ps acc by
        simp [rankingLoop, h0]] at h
      rcases ih acc nm h with ⟨q, hq1, hq2, hq3⟩
      exact ⟨q, by simp [hq1], hq2, hq3⟩
    · by_cases h2 : n = 2
      · simp [rankingLoop, h0, h2] at h
        exact ⟨p, by simp, h.symm, Nat.pos_of_ne_zero h0⟩
      · simp only [rankingLoop] at h
        rw [if_neg h0, if_neg h2] at h
        simp only [List.mem_cons] at h
        rcases h with h | h
        · exact ⟨p, by simp, h.symm, Nat.pos_of_ne_zero h0⟩
        · rcases ih _ nm h with ⟨q, hq1, hq2, hq3⟩
          exact ⟨q, by simp [hq1], hq2, hq3⟩

/-- Every row produced by the printRanking loop was already in the
accumulator or comes from a listed player with a positive total. -/
theorem rankingLoop_rows (n : Nat) : ∀ (ps : List PlayerData)
    (acc : List (ℝ × RankingData)) (row : ℝ × RankingData),
    row ∈ (rankingLoop n ps acc).2.1 →
    row ∈ acc ∨ ∃ p, p ∈ ps ∧ 0 < total p ∧
      row = (-(eloDiff (ratioOf p)), mkRow p) := by
  intro ps
  induction ps with
  | nil => intro acc row h; exact Or.inl (by simpa [rankingLoop] using h)
  | cons p ps ih =>
    intro acc row h
    by_cases h0 : total p = 0
    · rw [show rankingLoop n (p :: ps) acc = rankingLoop n ps acc by
        simp [rankingLoop, h0]] at h
      rcases ih acc row h with h2 | ⟨q, hq1, hq2, hq3⟩
      · exact Or.inl h2
      · exact Or.inr ⟨q, by simp [hq1], hq2, hq3⟩
    · by_cases h2 : n = 2
      · simp [rankingLoop, h0, h2] at h
        exact Or.inl h
      · simp only [rankingLoop] at h
        rw [if_neg h0, if_neg h2] at h
        rcases ih _ row h with h3 | ⟨q, hq1, hq2, hq3⟩
        · rcases qmmInsert_mem h3 with h4 | h4
          · exact Or.inr ⟨p, by simp, Nat.pos_of_ne_zero h0, h4⟩
          · exact Or.inl h4
        · exact Or.inr ⟨q, by simp [hq1], hq2, hq3⟩

/-- With exactly two configured players, the printRanking loop never
inserts a row into the multimap. -/
theorem rankingLoop_two_rows : ∀ (ps : List PlayerData)
    (acc : List (ℝ × RankingData)), (rankingLoop 2 ps acc).2.1 = acc := by
  intro ps
  induction ps with
  | nil => intro acc; rfl
  | cons p ps ih =>
    intro acc
    by_cases h0 : total p = 0
    · rw [show rankingLoop 2 (p :: ps) acc = rankingLoop 2 ps acc by
        simp [rankingLoop, h0]]
      exact ih acc
    · simp [rankingLoop, h0]

/-- The printRanking loop keeps the multimap sorted by key. -/
theorem rankingLoop_pairwise (n : Nat) : ∀ (ps : List PlayerData)
    (acc : List (ℝ × RankingData)),
    acc.Pairwise (fun a b => a.1 ≤ b.1) →
    ((rankingLoop n ps acc).2.1).Pairwise (fun a b => a.1 ≤ b.1) := by
  intro ps
  induction ps with
  | nil => intro acc h; simpa [rankingLoop] using h
  | cons p ps ih =>
    intro acc h
    by_cases h0 : total p = 0
    · rw [show rankingLoop n (p :: ps) acc = rankingLoop n ps acc by
        simp [rankingLoop, h0]]
      exact ih acc h
    · by_cases h2 : n = 2
      · simpa [rankingLoop, h0, h2] using h
      · simp only [rankingLoop]
        rw [if_neg h0, if_neg h2]
        exact ih _ (qmmInsert_pairwise h)

/-- When every listed player has a positive total and they all share one
Elo estimate, the loop stacks the rows in reverse list order: each
insertion goes in front of the equal keys already present. -/
theorem rankingLoop_all_ties (n : Nat) (e : ℝ) : ∀ (ps : List PlayerData)
    (acc : List (ℝ × RankingData)), n ≠ 2 →
    (∀ p ∈ ps, total p ≠ 0 ∧ eloDiff (ratioOf p) = e) →
    (∀ x ∈ acc, x.1 = -e) →
    (rankingLoop n ps acc).2.1 =
      (ps.map (fun p => (-(eloDiff (ratioOf p)), mkRow p))).reverse ++ acc := by
  intro ps
  induction ps with
  | nil => intro acc _ _ _; simp [rankingLoop]
  | cons p ps ih =>
    intro acc hn hps hacc
    obtain ⟨hp0, hpe⟩ := hps p (by simp)
    have hins : qmmInsert (-(eloDiff (ratioOf p))) (mkRow p) acc
        = (-(eloDiff (ratioOf p)), mkRow p) :: acc := by
      apply qmmInsert_eq_cons
      intro x hx
      rw [hacc x hx, hpe]
    have hstep : (rankingLoop n (p :: ps) acc).2.1
        = (rankingLoop n ps
            ((-(eloDiff (ratioOf p)), mkRow p) :: acc)).2.1 := by
      simp only [rankingLoop]
      rw [if_neg hp0, if_neg hn, hins]
    rw [hstep, ih _ hn (fun q hq => hps q (by simp [hq])) ?_]
    · simp
    · intro x hx
      rcases List.mem_cons.mp hx with rfl | hx
      · simp [hpe]
      · exact hacc x hx

/-! Claim C9: players without finished games are skipped entirely. -/

/-- Claim C9: printRanking evaluates the ratio and Elo formula only for
players with a positive total, a player with zero finished games never
yields a ranking row, and when no player has any finished game nothing is
printed at all: no rows, no header, no ELO line. -/
theorem c9_zero_total_skipped (players : List PlayerData) :
    (∀ nm ∈ (printRanking players).evaluated,
      ∃ p, p ∈ players ∧ p.name = nm ∧ 0 < total p) ∧
    (∀ row ∈ (printRanking players).rows,
      ∃ p, p ∈ players ∧ 0 < total p ∧
        row = (-(eloDiff (ratioOf p)), mkRow p)) ∧
    ((∀ p ∈ players, total p = 0) →
      (printRanking players).rows = [] ∧
      (printRanking players).header = false ∧
      (printRanking players).eloLine = none ∧
      (printRanking players).evaluated = []) := by
  refine ⟨?_, ?_, ?_⟩
  · intro nm hnm
    exact rankingLoop_evaluated players.length players [] nm hnm
  · intro row hrow
    rcases rankingLoop_rows players.length players [] row hrow with h | h
    · simp at h
    · exact h
  · intro hall
    have h := rankingLoop_all_zero players.length players [] hall
    simp [printRanking, h]

/-- Witness for c9_zero_total_skipped: with three players who have no
finished games nothing is printed, and in a two-player match where the
first player has one win, the one evaluated name belongs to a player
with positive total. -/
theorem c9_zero_total_skipped_witness :
    ((printRanking [⟨"A", 0, 0, 0⟩, ⟨"B", 0, 0, 0⟩, ⟨"C", 0, 0, 0⟩]).rows
        = [] ∧
      (printRanking [⟨"A", 0, 0, 0⟩, ⟨"B", 0, 0, 0⟩, ⟨"C", 0, 0, 0⟩]).header
        = false ∧
      (printRanking [⟨"A", 0, 0, 0⟩, ⟨"B", 0, 0, 0⟩, ⟨"C", 0, 0, 0⟩]).eloLine
        = none ∧
      (printRanking [⟨"A", 0, 0, 0⟩, ⟨"B", 0, 0, 0⟩,
        ⟨"C", 0, 0, 0⟩]).evaluated = []) ∧
    (∃ p, p ∈ [(⟨"A", 1, 0, 0⟩ : PlayerData), ⟨"B", 0, 1, 0⟩] ∧
      p.name = "A" ∧ 0 < total p) :=
  ⟨(c9_zero_total_skipped [⟨"A", 0, 0, 0⟩, ⟨"B", 0, 0, 0⟩,
      ⟨"C", 0, 0, 0⟩]).2.2
    (by intro p hp; rcases List.mem_cons.mp hp with rfl | hp; · rfl
        rcases List.mem_cons.mp hp with rfl | hp; · rfl
        rcases List.mem_cons.mp hp with rfl | hp; · rfl
        simp at hp),
   (c9_zero_total_skipped [⟨"A", 1, 0, 0⟩, ⟨"B", 0, 1, 0⟩]).1 "A"
    (by simp [printRanking, rankingLoop, total, score])⟩

/-! Claim C10: the two-player branch of printRanking. -/

/-- Claim C10: with exactly two configured players, printRanking builds
no ranking rows and prints no table header; under the tournament
invariant that both players have played the same number of games, the
printed ELO line comes from the first player when any games are finished
and is absent otherwise; and for at least two players, a nonempty
ranking table implies more than two players. -/
theorem c10_two_player_branch (p0 p1 : PlayerData) :
    ((printRanking [p0, p1]).rows = [] ∧
     (printRanking [p0, p1]).header = false) ∧
    (total p0 = total p1 →
      (printRanking [p0, p1]).eloLine =
        (if 0 < total p0 then some (eloDiff (ratioOf p0)) else none)) ∧
    (∀ players : List PlayerData, 2 ≤ players.length →
      (printRanking players).rows ≠ [] → 2 < players.length) := by
  have hrows : (printRanking [p0, p1]).rows = [] := by
    simp only [printRanking]
    exact rankingLoop_two_rows [p0, p1] []
  refine ⟨⟨hrows, ?_⟩, ?_, ?_⟩
  · simp only [printRanking] at hrows ⊢
    rw [hrows]
    rfl
  · intro hinv
    by_cases h0 : total p0 = 0
    · have h1 : total p1 = 0 := hinv ▸ h0
      have h := rankingLoop_all_zero 2 [p0, p1] []
        (by intro q hq; rcases List.mem_cons.mp hq with rfl | hq; · exact h0
            rcases List.mem_cons.mp hq with rfl | hq; · exact h1
            simp at hq)
      simp [printRanking, h, h0]
    · have hpos : 0 < total p0 := Nat.pos_of_ne_zero h0
      simp [printRanking, rankingLoop, h0, hpos]
  · intro players hlen hne
    rcases Nat.lt_or_ge 2 players.length with h | h
    · exact h
    · exfalso
      have hlen2 : players.length = 2 := le_antisymm h hlen
      apply hne
      simp only [printRanking]
      rw [hlen2]
      exact rankingLoop_two_rows players []

/-- Witness for c10_two_player_branch at a concrete two-player state
with one finished game. -/
theorem c10_two_player_branch_witness :
    ((printRanking [(⟨"A", 1, 0, 0⟩ : PlayerData), ⟨"B", 0, 1, 0⟩]).rows
        = [] ∧
     (printRanking [(⟨"A", 1, 0, 0⟩ : PlayerData), ⟨"B", 0, 1, 0⟩]).header
        = false) ∧
    (printRanking [(⟨"A", 1, 0, 0⟩ : PlayerData), ⟨"B", 0, 1, 0⟩]).eloLine =
      (if 0 < total (⟨"A", 1, 0, 0⟩ : PlayerData)
        then some (eloDiff (ratioOf ⟨"A", 1, 0, 0⟩)) else none) :=
  ⟨(c10_two_player_branch ⟨"A", 1, 0, 0⟩ ⟨"B", 0, 1, 0⟩).1,
   (c10_two_player_branch ⟨"A", 1, 0, 0⟩ ⟨"B", 0, 1, 0⟩).2.1 (by rfl)⟩

/-! Claim C4: order of the ranking rows. -/

/-- Players with one win and one loss share the score ratio one half,
whose Elo difference is zero. -/
theorem eloDiff_one_one (nm : String) : eloDiff (ratioOf ⟨nm, 1, 1, 0⟩) = 0 := by
  have h : ratioOf ⟨nm, 1, 1, 0⟩ = 1 / 2 := by
    simp [ratioOf, score, total]
    norm_num
  rw [h]
  simp only [eloDiff]
  norm_num

/-- Claim C4, counterexample: the claim states that players with equal
Elo estimates appear in insertion order (ascending player index).  With
three players that all have one win and one loss, all Elo estimates are
equal, yet the rows come out in the order C, B, A: the reverse of the
insertion order, because each QMultiMap insertion precedes the existing
items with an equal key. -/
theorem c4_equal_elo_counterexample :
    ((printRanking [⟨"A", 1, 1, 0⟩, ⟨"B", 1, 1, 0⟩, ⟨"C", 1, 1, 0⟩]).rows.map
        (fun x => x.2.name) = ["C", "B", "A"]) ∧
    eloDiff (ratioOf ⟨"A", 1, 1, 0⟩) = eloDiff (ratioOf ⟨"B", 1, 1, 0⟩) ∧
    eloDiff (ratioOf ⟨"B", 1, 1, 0⟩) = eloDiff (ratioOf ⟨"C", 1, 1, 0⟩) ∧
    ((printRanking [⟨"A", 1, 1, 0⟩, ⟨"B", 1, 1, 0⟩, ⟨"C", 1, 1, 0⟩]).rows.map
        (fun x => x.2.name) ≠ ["A", "B", "C"]) := by
  have hrows : (printRanking [⟨"A", 1, 1, 0⟩, ⟨"B", 1, 1, 0⟩,
      ⟨"C", 1, 1, 0⟩]).rows.map (fun x => x.2.name) = ["C", "B", "A"] := by
    have h := rankingLoop_all_ties 3 0
      [⟨"A", 1, 1, 0⟩, ⟨"B", 1, 1, 0⟩, ⟨"C", 1, 1, 0⟩] [] (by decide)
      (by intro p hp
          simp only [List.mem_cons, List.not_mem_nil, or_false] at hp
          rcases hp with rfl | rfl | rfl
          · exact ⟨by decide, eloDiff_one_one "A"⟩
          · exact ⟨by decide, eloDiff_one_one "B"⟩
          · exact ⟨by decide, eloDiff_one_one "C"⟩)
      (by intro x hx; simp at hx)
    simp only [printRanking]
    rw [show ([(⟨"A", 1, 1, 0⟩ : PlayerData), ⟨"B", 1, 1, 0⟩,
      ⟨"C", 1, 1, 0⟩]).length = 3 from rfl, h]
    simp [mkRow]
  refine ⟨hrows, ?_, ?_, ?_⟩
  · rw [eloDiff_one_one, eloDiff_one_one]
  · rw [eloDiff_one_one, eloDiff_one_one]
  · rw [hrows]
    decide

/-- Filtering an insertion at its own key: the new item lands in front
of every older item with an equal key, wherever the insertion point
falls. -/
theorem qmmInsert_filter_eq {K α : Type} [LinearOrder K] {k c : K} {v : α}
    (l : List (K × α)) (hkc : k = c) :
    (qmmInsert k v l).filter (fun x => x.1 = c) =
      (k, v) :: l.filter (fun x => x.1 = c) := by
  subst hkc
  induction l with
  | nil => simp [qmmInsert]
  | cons hd t ih =>
    obtain ⟨k1, v1⟩ := hd
    by_cases hle : k ≤ k1
    · simp only [qmmInsert]
      rw [if_pos hle]
      simp
    · have hne : ¬ k1 = k := fun h => hle (le_of_eq h.symm)
      simp only [qmmInsert]
      rw [if_neg hle]
      simp [List.filter_cons, hne, ih]

/-- Filtering an insertion at another key leaves the filtered rows
unchanged: an insertion never reorders the items already present. -/
theorem qmmInsert_filter_ne {K α : Type} [LinearOrder K] {k c : K} {v : α}
    (l : List (K × α)) (hkc : k ≠ c) :
    (qmmInsert k v l).filter (fun x => x.1 = c) =
      l.filter (fun x => x.1 = c) := by
  induction l with
  | nil => simp [qmmInsert, hkc]
  | cons hd t ih =>
    obtain ⟨k1, v1⟩ := hd
    by_cases hle : k ≤ k1
    · simp only [qmmInsert]
      rw [if_pos hle]
      simp [List.filter_cons, hkc]
    · simp only [qmmInsert]
      rw [if_neg hle]
      simp [List.filter_cons, ih]

/-- The rows of the printRanking loop that carry the key of one Elo
estimate e are exactly the positive-total players whose Elo estimate is
e, in reverse list order, followed by the matching rows already in the
accumulator: every equal-Elo group comes out most recently inserted
first, also inside a table of mixed estimates. -/
theorem rankingLoop_filter_key (n : Nat) (e : ℝ) : ∀ (ps : List PlayerData)
    (acc : List (ℝ × RankingData)), n ≠ 2 →
    ((rankingLoop n ps acc).2.1).filter (fun x => x.1 = -e) =
      ((ps.filter (fun p => total p ≠ 0 ∧ eloDiff (ratioOf p) = e)).map
        (fun p => (-(eloDiff (ratioOf p)), mkRow p))).reverse ++
      acc.filter (fun x => x.1 = -e) := by
  intro ps
  induction ps with
  | nil => intro acc _; simp [rankingLoop]
  | cons p ps ih =>
    intro acc hn
    by_cases h0 : total p = 0
    · rw [show rankingLoop n (p :: ps) acc = rankingLoop n ps acc by
        simp [rankingLoop, h0]]
      rw [ih acc hn]
      simp [List.filter_cons, h0]
    · have hstep : (rankingLoop n (p :: ps) acc).2.1
          = (rankingLoop n ps
              (qmmInsert (-(eloDiff (ratioOf p))) (mkRow p) acc)).2.1 := by
        simp only [rankingLoop]
        rw [if_neg h0, if_neg hn]
      by_cases hk : eloDiff (ratioOf p) = e
      · rw [hstep, ih _ hn,
          qmmInsert_filter_eq acc (by rw [hk] : -(eloDiff (ratioOf p)) = -e)]
        simp [List.filter_cons, h0, hk, List.append_assoc]
      · have hkey : -(eloDiff (ratioOf p)) ≠ -e := fun h => hk (neg_inj.mp h)
        rw [hstep, ih _ hn, qmmInsert_filter_ne acc hkey]
        simp [List.filter_cons, hk]

/-- Claim C4, amended: the rows of the ranking table are sorted by
ascending stored key, that is by descending Elo estimate; and within any
ranking table, mixed estimates included, the players sharing any one Elo
estimate e appear in the reverse of insertion order, most recently
inserted first: the rows carrying the key of e are exactly the
positive-total players with Elo estimate e, in reverse player order. -/
theorem c4_ranking_order (players : List PlayerData) (e : ℝ) :
    ((printRanking players).rows.Pairwise (fun a b => a.1 ≤ b.1)) ∧
    (players.length ≠ 2 →
      ((printRanking players).rows.filter (fun x => x.1 = -e)).map
          (fun x => x.2.name) =
        ((players.filter
            (fun p => total p ≠ 0 ∧ eloDiff (ratioOf p) = e)).map
          PlayerData.name).reverse) := by
  constructor
  · exact rankingLoop_pairwise players.length players [] (by simp)
  · intro hn
    have h := rankingLoop_filter_key players.length e players [] hn
    simp only [printRanking]
    rw [h]
    simp [mkRow, Function.comp]

/-- Witness for c4_ranking_order at three tied players: the group of the
shared Elo estimate zero comes out as C, B, A, the reverse of the
insertion order. -/
theorem c4_ranking_order_witness :
    ((printRanking [⟨"A", 1, 1, 0⟩, ⟨"B", 1, 1, 0⟩,
        ⟨"C", 1, 1, 0⟩]).rows.Pairwise (fun a b => a.1 ≤ b.1)) ∧
    (((printRanking [⟨"A", 1, 1, 0⟩, ⟨"B", 1, 1, 0⟩,
        ⟨"C", 1, 1, 0⟩]).rows.filter (fun x => x.1 = -(0 : ℝ))).map
          (fun x => x.2.name) =
      ((([⟨"A", 1, 1, 0⟩, ⟨"B", 1, 1, 0⟩,
          ⟨"C", 1, 1, 0⟩] : List PlayerData).filter
            (fun p => total p ≠ 0 ∧ eloDiff (ratioOf p) = 0)).map
          PlayerData.name).reverse) ∧
    ((([⟨"A", 1, 1, 0⟩, ⟨"B", 1, 1, 0⟩,
        ⟨"C", 1, 1, 0⟩] : List PlayerData).filter
          (fun p => total p ≠ 0 ∧ eloDiff (ratioOf p) = 0)).map
        PlayerData.name).reverse = ["C", "B", "A"] := by
  refine ⟨(c4_ranking_order [⟨"A", 1, 1, 0⟩, ⟨"B", 1, 1, 0⟩,
      ⟨"C", 1, 1, 0⟩] 0).1,
    (c4_ranking_order [⟨"A", 1, 1, 0⟩, ⟨"B", 1, 1, 0⟩,
      ⟨"C", 1, 1, 0⟩] 0).2 (by decide), ?_⟩
  simp [List.filter_cons, eloDiff_one_one, total]

/-! Claim C6: the SPRT summary line. -/

/-- Claim C6: when llr, lBound and uBound of the SPRT status are all
zero, no SPRT summary line is emitted; otherwise exactly one line is
emitted that carries all three values, and the verdict text is appended
to it exactly when the result is AcceptH0 or AcceptH1. -/
theorem c6_sprt_summary_line (s : SprtStatus) :
    ((s.llr = 0 ∧ s.lBound = 0 ∧ s.uBound = 0) → sprtSummary s = none) ∧
    ((s.llr ≠ 0 ∨ s.lBound ≠ 0 ∨ s.uBound ≠ 0) →
      ∃ L : SprtLine, sprtSummary s = some L ∧
        L.llr = s.llr ∧ L.lBound = s.lBound ∧ L.uBound = s.uBound ∧
        (∀ r : SprtResult,
          L.verdict = some r ↔ (s.result = r ∧ r ≠ SprtResult.Continuing))) := by
  constructor
  · rintro ⟨h1, h2, h3⟩
    simp [sprtSummary, h1, h2, h3]
  · intro h
    refine ⟨_, by rw [sprtSummary, if_pos h], rfl, rfl, rfl, ?_⟩
    intro r
    cases hres : s.result <;> cases r <;> simp [hres]

/-- Witness for c6_sprt_summary_line at a nontrivial accepted status and
at the all-zero status. -/
theorem c6_sprt_summary_line_witness :
    (∃ L : SprtLine,
      sprtSummary ⟨SprtResult.AcceptH0, 1, -2, 2⟩ = some L ∧
      L.llr = (⟨SprtResult.AcceptH0, 1, -2, 2⟩ : SprtStatus).llr ∧
      L.lBound = (⟨SprtResult.AcceptH0, 1, -2, 2⟩ : SprtStatus).lBound ∧
      L.uBound = (⟨SprtResult.AcceptH0, 1, -2, 2⟩ : SprtStatus).uBound ∧
      (∀ r : SprtResult, L.verdict = some r ↔
        ((⟨SprtResult.AcceptH0, 1, -2, 2⟩ : SprtStatus).result = r ∧
          r ≠ SprtResult.Continuing))) ∧
    sprtSummary ⟨SprtResult.Continuing, 0, 0, 0⟩ = none :=
  ⟨(c6_sprt_summary_line ⟨SprtResult.AcceptH0, 1, -2, 2⟩).2
      (Or.inl (by norm_num)),
   (c6_sprt_summary_line ⟨SprtResult.Continuing, 0, 0, 0⟩).1
      ⟨rfl, rfl, rfl⟩⟩

/-! Claim C5: the two-player scenario 6 wins, 2 draws, 2 losses. -/

/-- Lower bound on the natural logarithm of 7/3. -/
theorem log_seven_thirds_gt : (61 : ℝ) / 72 < Real.log (7 / 3) := by
  rw [Real.lt_log_iff_exp_lt (by norm_num : (0:ℝ) < 7 / 3)]
  have h72 : Real.exp ((61 : ℝ) / 72) ^ (72 : ℕ) = Real.exp 61 := by
    rw [← Real.exp_nat_mul]
    norm_num
  have h61 : Real.exp 1 ^ (61 : ℕ) = Real.exp 61 := by
    rw [← Real.exp_nat_mul]
    norm_num
  have hlt : Real.exp ((61 : ℝ) / 72) ^ (72 : ℕ) < ((7 : ℝ) / 3) ^ (72 : ℕ) := by
    rw [h72, ← h61]
    calc Real.exp 1 ^ (61 : ℕ)
        < (2.7182818286 : ℝ) ^ (61 : ℕ) :=
          pow_lt_pow_left₀ Real.exp_one_lt_d9 (Real.exp_pos 1).le (by norm_num)
      _ < ((7 : ℝ) / 3) ^ (72 : ℕ) := by norm_num
  exact lt_of_pow_lt_pow_left₀ 72 (by norm_num) hlt

/-- Upper bound on the natural logarithm of 7/3. -/
theorem log_seven_thirds_lt : Real.log (7 / 3) < (50 : ℝ) / 59 := by
  rw [Real.log_lt_iff_lt_exp (by norm_num : (0:ℝ) < 7 / 3)]
  have h59 : Real.exp ((50 : ℝ) / 59) ^ (59 : ℕ) = Real.exp 50 := by
    rw [← Real.exp_nat_mul]
    norm_num
  have h50 : Real.exp 1 ^ (50 : ℕ) = Real.exp 50 := by
    rw [← Real.exp_nat_mul]
    norm_num
  have hlt : ((7 : ℝ) / 3) ^ (59 : ℕ) < Real.exp ((50 : ℝ) / 59) ^ (59 : ℕ) := by
    rw [h59, ← h50]
    calc ((7 : ℝ) / 3) ^ (59 : ℕ)
        < (2.7182818283 : ℝ) ^ (50 : ℕ) := by norm_num
      _ < Real.exp 1 ^ (50 : ℕ) :=
          pow_lt_pow_left₀ Real.exp_one_gt_d9 (by norm_num) (by norm_num)
  exact lt_of_pow_lt_pow_left₀ 59 (Real.exp_pos _).le hlt

/-- Lower bound on the natural logarithm of 10. -/
theorem log_ten_gt : (99 : ℝ) / 43 < Real.log 10 := by
  rw [Real.lt_log_iff_exp_lt (by norm_num : (0:ℝ) < 10)]
  have h43 : Real.exp ((99 : ℝ) / 43) ^ (43 : ℕ) = Real.exp 99 := by
    rw [← Real.exp_nat_mul]
    norm_num
  have h99 : Real.exp 1 ^ (99 : ℕ) = Real.exp 99 := by
    rw [← Real.exp_nat_mul]
    norm_num
  have hlt : Real.exp ((99 : ℝ) / 43) ^ (43 : ℕ) < (10 : ℝ) ^ (43 : ℕ) := by
    rw [h43, ← h99]
    calc Real.exp 1 ^ (99 : ℕ)
        < (2.7182818286 : ℝ) ^ (99 : ℕ) :=
          pow_lt_pow_left₀ Real.exp_one_lt_d9 (Real.exp_pos 1).le (by norm_num)
      _ < (10 : ℝ) ^ (43 : ℕ) := by norm_num
  exact lt_of_pow_lt_pow_left₀ 43 (by norm_num) hlt

/-- Upper bound on the natural logarithm of 10. -/
theorem log_ten_lt : Real.log 10 < (76 : ℝ) / 33 := by
  rw [Real.log_lt_iff_lt_exp (by norm_num : (0:ℝ) < 10)]
  have h33 : Real.exp ((76 : ℝ) / 33) ^ (33 : ℕ) = Real.exp 76 := by
    rw [← Real.exp_nat_mul]
    norm_num
  have h76 : Real.exp 1 ^ (76 : ℕ) = Real.exp 76 := by
    rw [← Real.exp_nat_mul]
    norm_num
  have hlt : (10 : ℝ) ^ (33 : ℕ) < Real.exp ((76 : ℝ) / 33) ^ (33 : ℕ) := by
    rw [h33, ← h76]
    calc (10 : ℝ) ^ (33 : ℕ)
        < (2.7182818283 : ℝ) ^ (76 : ℕ) := by norm_num
      _ < Real.exp 1 ^ (76 : ℕ) :=
          pow_lt_pow_left₀ Real.exp_one_gt_d9 (by norm_num) (by norm_num)
  exact lt_of_pow_lt_pow_left₀ 33 (Real.exp_pos _).le hlt

/-- The Elo difference at ratio 7/10 in closed form. -/
theorem eloDiff_seven_tenths :
    eloDiff (7 / 10) = 400 * Real.log (7 / 3) / Real.log 10 := by
  simp only [eloDiff]
  rw [show (1 : ℝ) / (7 / 10) - 1 = 3 / 7 by norm_num,
    show ((3 : ℝ) / 7) = ((7 : ℝ) / 3)⁻¹ by norm_num, Real.log_inv]
  ring

/-- Claim C5: with 6 wins, 2 draws and 2 losses the ranking computation
yields score 14, total 20 and ratio 7/10, the two-player branch prints
the Elo difference of that ratio, and that Elo difference is within one
half of 147 (hence approximately 147). -/
theorem c5_two_player_scenario :
    score ⟨"A", 6, 2, 2⟩ = 14 ∧
    total ⟨"A", 6, 2, 2⟩ = 20 ∧
    ratioOf ⟨"A", 6, 2, 2⟩ = 7 / 10 ∧
    (printRanking [⟨"A", 6, 2, 2⟩, ⟨"B", 2, 6, 2⟩]).eloLine =
      some (eloDiff (7 / 10)) ∧
    |eloDiff (7 / 10) - 147| < 1 / 2 := by
  have hr : ratioOf ⟨"A", 6, 2, 2⟩ = 7 / 10 := by
    simp [ratioOf, score, total]
    norm_num
  refine ⟨rfl, rfl, hr, ?_, ?_⟩
  · simp [printRanking, rankingLoop, total, score, hr]
  · have hM0 : 0 < Real.log 10 := lt_trans (by norm_num) log_ten_gt
    have h1 : (146.5 : ℝ) * Real.log 10 < 400 * Real.log (7 / 3) := by
      have := log_seven_thirds_gt
      have := log_ten_lt
      linarith
    have h2 : 400 * Real.log (7 / 3) < (147.5 : ℝ) * Real.log 10 := by
      have := log_seven_thirds_lt
      have := log_ten_gt
      linarith
    have h3 : (146.5 : ℝ) < 400 * Real.log (7 / 3) / Real.log 10 :=
      (lt_div_iff₀ hM0).mpr (by linarith)
    have h4 : 400 * Real.log (7 / 3) / Real.log 10 < (147.5 : ℝ) :=
      (div_lt_iff₀ hM0).mpr (by linarith)
    rw [eloDiff_seven_tenths, abs_lt]
    constructor <;> linarith

end EngineMatch
